import Mathlib

/-!
Verification of `src/data-processor/processor.py` against its specification.

The program is a pandas-based tabular pipeline.  We embed the grid
(pandas `DataFrame`) shallowly: a grid is an ordered list of columns,
each column a name together with an ordered list of cell values.  A cell
is a string, a number (modelled as `Rat`; the claims under study do not
depend on binary floating-point rounding), or the missing-marker (NaN).
A column's pandas dtype is derived from its contents, matching what the
CSV/Excel loaders produce: a column holding at least one string has
dtype `object`; a column holding only numbers and missing-markers is a
numeric dtype (an all-missing column is `float64`, hence numeric).
-/

namespace DataProcessor

/-- A cell of the grid: string, number, or the missing-marker (NaN). -/
inductive Cell where
  | str : String → Cell
  | num : Rat → Cell
  | missing : Cell
deriving DecidableEq, Repr, Inhabited

/-- A named column: the unit pandas operates on. -/
structure Col where
  name : String
  vals : List Cell
deriving DecidableEq, Repr, Inhabited

/-- A grid (pandas `DataFrame`): ordered columns, column-major. -/
structure Grid where
  cols : List Col
deriving DecidableEq, Repr, Inhabited

def Cell.isMissing : Cell → Bool
  | .missing => true
  | _ => false

def Cell.isStr : Cell → Bool
  | .str _ => true
  | _ => false

def Cell.isNum : Cell → Bool
  | .num _ => true
  | _ => false

/-- A column has pandas dtype `object` iff it contains a string value. -/
def Col.hasStr (c : Col) : Bool := c.vals.any Cell.isStr

/-- A column is selected by `select_dtypes(include=["number"])` iff it
contains no string (numbers and NaN only; an all-missing column is
`float64`, hence numeric). -/
def Col.isNumericCol (c : Col) : Bool := ! c.hasStr

def Grid.colNames (g : Grid) : List String := g.cols.map Col.name

/-- `len(df)`: the number of rows (length of the first column; pandas
keeps all columns the same length). -/
def Grid.nrows (g : Grid) : Nat :=
  match g.cols with
  | [] => 0
  | c :: _ => c.vals.length

/-- All columns have the same length and (as the spec's Grid invariant
demands) column names are distinct. -/
def Grid.WF (g : Grid) : Prop :=
  (∀ c ∈ g.cols, c.vals.length = g.nrows) ∧ g.colNames.Nodup

/-! ### Python `str.strip`

Modelled directly as dropping whitespace from both ends of the
character list, so that its idempotence is provable by list induction. -/

/-- Python's `str.strip()`: remove leading and trailing whitespace. -/
def pytrim (s : String) : String :=
  ⟨List.rdropWhile Char.isWhitespace (s.data.dropWhile Char.isWhitespace)⟩

/-! ### `basic_clean` (processor.py lines 36–55)

```python
def basic_clean(df, drop_threshold=0.6, fill_method="ffill"):
    df = df.copy()
    df.rename(columns=lambda c: c.strip() if isinstance(c, str) else c, inplace=True)
    for col in df.select_dtypes(include=["object"]).columns:
        df[col] = df[col].astype(str).str.strip().replace({"nan": "", "None": ""})
    na_frac = df.isna().mean()
    drop_cols = na_frac[na_frac > drop_threshold].index.tolist()
    if drop_cols:
        df.drop(columns=drop_cols, inplace=True)
    if fill_method == "ffill":
        df.fillna(method="ffill", inplace=True)
        df.fillna(method="bfill", inplace=True)
    elif fill_method == "zero":
        df.fillna(0, inplace=True)
    else:
        df.fillna(method="ffill", inplace=True)
    return df, drop_cols
```
-/

/-- `rename(columns=lambda c: c.strip() ...)`: strip the column name
(loader-produced column names are strings). -/
def stripName (c : Col) : Col := ⟨pytrim c.name, c.vals⟩

/-- `str(x)` as pandas `astype(str)` applies it: a string stays itself,
NaN prints as `"nan"`, a number prints as its decimal form (the exact
digits never collide with the replaced tokens). -/
def cellToStr : Cell → String
  | .str s => s
  | .num q => toString q
  | .missing => "nan"

/-- One cell of `astype(str).str.strip().replace({"nan": "", "None": ""})`. -/
def normStrCell (v : Cell) : Cell :=
  let s := pytrim (cellToStr v)
  if s = "nan" ∨ s = "None" then .str "" else .str s

/-- The step-2 loop body, applied to the `object`-dtype columns only. -/
def normStrCol (c : Col) : Col :=
  if c.hasStr then ⟨c.name, c.vals.map normStrCell⟩ else c

/-- `isna` count of a column. -/
def Col.missingCount (c : Col) : Nat := c.vals.countP Cell.isMissing

/-- `df.isna().mean()` for one column: missing count over row count,
written with `mkRat` (provably the same as the division, see
`naFrac_eq_div`).  Pandas' mean of an empty column is NaN; here it is
`0`, and the guard in `dropDecision` keeps the comparison semantics
faithful. -/
def Col.naFrac (c : Col) : Rat := mkRat c.missingCount c.vals.length

/-- `na_frac > drop_threshold` for one column.  For a zero-row column
pandas computes `NaN > t`, which is `False`; hence the length guard. -/
def Col.dropDecision (c : Col) (t : Rat) : Bool :=
  decide (0 < c.vals.length) && decide (t < c.naFrac)

/-- Forward fill, threading the last non-missing value seen
(`fillna(method="ffill")` works per column, top to bottom). -/
def ffillGo (last : Option Cell) : List Cell → List Cell
  | [] => []
  | v :: rest =>
    match v with
    | .missing => (last.getD .missing) :: ffillGo last rest
    | w => w :: ffillGo (some w) rest

def ffillList (l : List Cell) : List Cell := ffillGo none l

/-- Backward fill = forward fill on the reversed column. -/
def bfillList (l : List Cell) : List Cell := (ffillList l.reverse).reverse

/-- `fillna(0)` on one cell. -/
def zeroFill : Cell → Cell
  | .missing => .num 0
  | v => v

/-- The fill stage of `basic_clean`, per column (pandas `fillna` with a
method acts on each column independently). -/
def fillVals (fill_method : String) (l : List Cell) : List Cell :=
  if fill_method = "ffill" then bfillList (ffillList l)
  else if fill_method = "zero" then l.map zeroFill
  else ffillList l

def fillCol (fill_method : String) (c : Col) : Col :=
  ⟨c.name, fillVals fill_method c.vals⟩

/-- The grid after steps 1–2 (rename + string-cell normalization): the
state `na_frac` is computed on. -/
def normGrid (g : Grid) : Grid := ⟨g.cols.map fun c => normStrCol (stripName c)⟩

/-- `basic_clean`: returns the cleaned grid and the dropped column
names.  `drop_cols` collects the (normalized) labels of the columns
whose own `na_frac` exceeds the threshold, and `df.drop(columns=
drop_cols)` removes every column whose label occurs in that list — with
duplicate stripped labels this removes all same-named columns, even one
whose own fraction is below the threshold. -/
def basic_clean (g : Grid) (drop_threshold : Rat) (fill_method : String) :
    Grid × List String :=
  let g2 := normGrid g
  let drop_cols := (g2.cols.filter fun c => c.dropDecision drop_threshold).map Col.name
  let kept := g2.cols.filter fun c => ! drop_cols.contains c.name
  (⟨kept.map (fillCol fill_method)⟩, drop_cols)

/-! ### `deduplicate` (processor.py lines 58–62)

```python
def deduplicate(df, subset=None):
    before = len(df)
    df2 = df.drop_duplicates(subset=subset)
    after = len(df2)
    return df2, before - after
```

`drop_duplicates` begins with `if self.empty: return self.copy()`: an
empty frame (an axis of length zero) is returned as a copy, with no
subset validation and `before - after = 0`.  Otherwise it keeps the
first occurrence of each distinct key (the row restricted to `subset`,
or the whole row when `subset is None`), preserving row order; NaN keys
compare equal to NaN; it raises `KeyError` when a subset name is not a
column. -/

/-- Row `i` of the grid (pandas rows are aligned across columns). -/
def Grid.row (g : Grid) (i : Nat) : List Cell :=
  g.cols.map fun c => c.vals.getD i Cell.missing

/-- The columns the duplicate comparison looks at: all of them when
`subset is None`, else exactly the named ones. -/
def keyCols (g : Grid) (subset : Option (List String)) : List Col :=
  match subset with
  | none => g.cols
  | some s => g.cols.filter fun c => decide (c.name ∈ s)

/-- The comparison key of row `i`: the row restricted to the subset
columns, or the whole row when no subset is given. -/
def rowKey (g : Grid) (subset : Option (List String)) (i : Nat) : List Cell :=
  (keyCols g subset).map fun c => c.vals.getD i Cell.missing

/-- Indices of the rows `drop_duplicates` keeps: row `i` survives iff no
earlier row has the same key. -/
def keptIndices (g : Grid) (subset : Option (List String)) : List Nat :=
  (List.range g.nrows).filter fun i =>
    ! (List.range i).any fun j => decide (rowKey g subset j = rowKey g subset i)

/-- Restrict the grid to the rows at the given indices, in order. -/
def Grid.selectRows (g : Grid) (idxs : List Nat) : Grid :=
  ⟨g.cols.map fun c => ⟨c.name, idxs.map fun i => c.vals.getD i Cell.missing⟩⟩

/-- `KeyError` raised by `drop_duplicates` on an unknown subset column. -/
inductive DedupError where
  | unknownColumn : String → DedupError
deriving DecidableEq, Repr

/-- `deduplicate`: drop duplicate rows, returning the kept grid and
`before - after`.  A frame is empty when it has zero rows (a
zero-column frame also has zero rows here); `drop_duplicates` then
returns `self.copy()` without looking at the subset.  The copy of a
zero-row frame is each column with its empty run of values, written
`selectRows []` (for every grid a DataFrame can represent — all columns
of the same, zero, length — this is the grid itself, see
`selectRows_nil_self`). -/
def deduplicate (g : Grid) (subset : Option (List String)) :
    Except DedupError (Grid × Nat) :=
  if g.nrows = 0 then .ok (g.selectRows [], 0)
  else
    match subset with
    | some s =>
      match s.find? (fun n => ! g.colNames.contains n) with
      | some n => .error (.unknownColumn n)
      | none =>
        let kept := keptIndices g (some s)
        .ok (g.selectRows kept, g.nrows - kept.length)
    | none =>
      let kept := keptIndices g none
      .ok (g.selectRows kept, g.nrows - kept.length)

/-! ### `save_plots` (processor.py lines 95–107)

```python
def save_plots(df, outdir, max_plots=3):
    outdir.mkdir(parents=True, exist_ok=True)
    numeric = df.select_dtypes(include=["number"])
    plots = []
    for i, col in enumerate(numeric.columns[:max_plots]):
        plt.figure()
        numeric[col].hist()
        plt.title(f"Histogram: {col}")
        p = outdir / f"hist_{i + 1}_{col}.png"
        plt.savefig(p)
        plt.close()
        plots.append(str(p.name))
    return plots
```

The rendering engine is external; we record each iteration of the loop
as a `PlotCall` holding the saved filename and the data handed to the
histogram (`Series.hist` drops NaN, so the non-missing numeric values). -/

structure PlotCall where
  file : String
  data : List Rat
deriving DecidableEq, Repr

/-- The non-missing numeric values of a column: what `.hist()` bins. -/
def histData (c : Col) : List Rat :=
  c.vals.filterMap fun v => match v with | .num q => some q | _ => none

/-- The plotting loop over the already-selected columns, `i` the
enumeration counter. -/
def save_plots_loop (i : Nat) : List Col → List PlotCall
  | [] => []
  | c :: rest =>
    ⟨"hist_" ++ toString (i + 1) ++ "_" ++ c.name ++ ".png", histData c⟩ ::
      save_plots_loop (i + 1) rest

/-- The columns `save_plots` iterates over: the first `max_plots`
numeric-dtype columns in grid order. -/
def plotSelection (g : Grid) (max_plots : Nat) : List Col :=
  (g.cols.filter Col.isNumericCol).take max_plots

/-- The histogram calls `save_plots` makes, in order. -/
def save_plots_calls (g : Grid) (max_plots : Nat) : List PlotCall :=
  save_plots_loop 0 (plotSelection g max_plots)

/-- `save_plots`' return value: the generated filenames in order. -/
def save_plots (g : Grid) (max_plots : Nat) : List String :=
  (save_plots_calls g max_plots).map PlotCall.file

/-! ### Object identity for `basic_clean` (frame property)

Python passes the `DataFrame` by reference and `basic_clean` mutates
in place (`inplace=True`, `df[col] = ...`) — but only after rebinding
`df` to `df.copy()`.  We model the reference structure explicitly: a
heap of grids indexed by reference, `copy` as allocation, and each
in-place statement as a store to the reference it targets. -/

/-- A heap of `DataFrame` objects; a reference is an index. -/
def heapGet (h : List Grid) (r : Nat) : Grid := h.getD r ⟨[]⟩

def heapSet (h : List Grid) (r : Nat) (g : Grid) : List Grid := h.set r g

/-- `basic_clean` with the copy-then-mutate structure explicit: takes
the heap and the reference passed in, returns the final heap, the
reference of the returned frame, and the dropped-column list.
Statement by statement from the source: `df = df.copy()` allocates;
`rename(..., inplace=True)`, the step-2 column assignments, `drop(...,
inplace=True)` and `fillna(..., inplace=True)` each store to the copy. -/
def basic_clean_st (h : List Grid) (r : Nat) (drop_threshold : Rat)
    (fill_method : String) : List Grid × Nat × List String :=
  let df := heapGet h r
  let h0 := h ++ [df]
  let rc := h.length
  let h1 := heapSet h0 rc ⟨(heapGet h0 rc).cols.map stripName⟩
  let h2 := heapSet h1 rc ⟨(heapGet h1 rc).cols.map normStrCol⟩
  let g2 := heapGet h2 rc
  let drop_cols := (g2.cols.filter fun c => c.dropDecision drop_threshold).map Col.name
  let h3 := heapSet h2 rc ⟨g2.cols.filter fun c => ! drop_cols.contains c.name⟩
  let h4 := heapSet h3 rc ⟨(heapGet h3 rc).cols.map (fillCol fill_method)⟩
  (h4, rc, drop_cols)

/-! ### `main` (processor.py lines 110–166)

Argument parsing, the filesystem and pandas I/O are external; we model
the run after argument parsing as a trace of effects plus the process
exit code.  `sys.exit(2)` / `sys.exit(3)` terminate the run; an
uncaught exception in a later stage terminates with Python's generic
code 1. -/

inductive Event where
  | mkdirOutput : Event
  | readInput : Event
  | writeFile : String → Event
deriving DecidableEq, Repr

/-- The external world: whether the input path exists, and what
`read_data` returns for it (a grid, or a parse failure). -/
structure Env where
  inputExists : Bool
  readData : Except String Grid

/-- The parsed CLI arguments that reach the pipeline. -/
structure Args where
  drop_threshold : Rat
  fill_method : String
  dedup_cols : Option (List String)

/-- `main` after argument parsing: the trace of effects and the exit
code.  Mirrors the source order: `outdir.mkdir` first, then the
existence check (`sys.exit(2)`), then `read_data` (`sys.exit(3)` on
failure), then clean → dedup → `to_csv` → `generate_summary` (mkdir,
summary.json, report.html) → `save_plots` (mkdir, one png per call) →
meta.json, exit 0.  An `UnknownColumn` failure in `deduplicate` is
uncaught: Python aborts with exit code 1 before any artifact write. -/
def main_run (env : Env) (a : Args) : List Event × Nat :=
  let t0 : List Event := [Event.mkdirOutput]
  if ¬ env.inputExists then (t0, 2)
  else
    match env.readData with
    | .error _ => (t0 ++ [Event.readInput], 3)
    | .ok df =>
      let cleaned := basic_clean df a.drop_threshold a.fill_method
      match deduplicate cleaned.1 a.dedup_cols with
      | .error _ => (t0 ++ [Event.readInput], 1)
      | .ok (deduped, _) =>
        let plotFiles := save_plots deduped 3
        (t0 ++ [Event.readInput, Event.writeFile "cleaned.csv", Event.mkdirOutput,
            Event.writeFile "summary.json", Event.writeFile "report.html",
            Event.mkdirOutput] ++ plotFiles.map Event.writeFile ++
            [Event.writeFile "meta.json"], 0)

/-! ## Lemmas -/

/-- A list mapped by a function fixing each of its members is unchanged. -/
theorem map_eq_self_of {α : Type} (f : α → α) (l : List α)
    (h : ∀ a ∈ l, f a = a) : l.map f = l := by
  induction l with
  | nil => rfl
  | cons a l ih =>
    simp only [List.map_cons, h a (List.mem_cons_self a l)]
    rw [ih fun b hb => h b (List.mem_cons_of_mem a hb)]

/-- The head surviving `dropWhile` fails the predicate. -/
theorem dropWhile_head_false {α : Type} (p : α → Bool) (l : List α) {b : α} {bs : List α}
    (h : l.dropWhile p = b :: bs) : p b = false := by
  induction l with
  | nil => simp [List.dropWhile] at h
  | cons a l ih =>
    rw [List.dropWhile_cons] at h
    by_cases hp : p a
    · exact ih (by simpa [hp] using h)
    · simp only [hp, if_false] at h
      cases h
      simpa using hp

/-- Stripping whitespace from both ends is idempotent. -/
theorem pytrim_idem (s : String) : pytrim (pytrim s) = pytrim s := by
  have key : ∀ l : List Char,
      List.rdropWhile Char.isWhitespace
        (List.dropWhile Char.isWhitespace
          (List.rdropWhile Char.isWhitespace (List.dropWhile Char.isWhitespace l))) =
      List.rdropWhile Char.isWhitespace (List.dropWhile Char.isWhitespace l) := by
    intro l
    have hdw : List.dropWhile Char.isWhitespace
        (List.rdropWhile Char.isWhitespace (List.dropWhile Char.isWhitespace l)) =
        List.rdropWhile Char.isWhitespace (List.dropWhile Char.isWhitespace l) := by
      obtain ⟨t, ht⟩ :=
        List.rdropWhile_prefix Char.isWhitespace (List.dropWhile Char.isWhitespace l)
      cases hB : List.rdropWhile Char.isWhitespace (List.dropWhile Char.isWhitespace l) with
      | nil => simp
      | cons b B =>
        have hbA : List.dropWhile Char.isWhitespace l = b :: (B ++ t) := by
          rw [← ht, hB]; simp
        have hbp := dropWhile_head_false Char.isWhitespace l hbA
        rw [List.dropWhile_cons, hbp]
        simp
    rw [hdw, List.rdropWhile_idempotent]
  show String.mk _ = String.mk _
  exact congrArg String.mk (key s.data)

theorem pytrim_of_pytrimmed {s s0 : String} (h : s = pytrim s0) : pytrim s = s := by
  rw [h, pytrim_idem]

/-- `normStrCell` always produces a string cell. -/
theorem normStrCell_isStr (v : Cell) : (normStrCell v).isStr = true := by
  unfold normStrCell
  by_cases h : pytrim (cellToStr v) = "nan" ∨ pytrim (cellToStr v) = "None" <;>
    simp [h, Cell.isStr]

/-- String-cell normalization is idempotent. -/
theorem normStrCell_idem (v : Cell) : normStrCell (normStrCell v) = normStrCell v := by
  by_cases h : pytrim (cellToStr v) = "nan" ∨ pytrim (cellToStr v) = "None"
  · have h1 : normStrCell v = .str "" := by unfold normStrCell; simp [h]
    rw [h1]
    unfold normStrCell
    have : pytrim (cellToStr (Cell.str "")) = "" := by decide
    rw [this]
    simp
  · have h1 : normStrCell v = .str (pytrim (cellToStr v)) := by unfold normStrCell; simp [h]
    rw [h1]
    unfold normStrCell
    have h2 : cellToStr (Cell.str (pytrim (cellToStr v))) = pytrim (cellToStr v) := rfl
    rw [h2, pytrim_idem]
    simp [h]

/-- Normalized string cells are never the missing-marker: this is the
source of the quirk that step 2 erases missingness from textual columns. -/
theorem normStrCell_not_missing (v : Cell) : (normStrCell v).isMissing = false := by
  have h := normStrCell_isStr v
  cases hv : normStrCell v <;> simp_all [Cell.isStr, Cell.isMissing]

/-- The missing-fraction is the missing count divided by the row count. -/
theorem naFrac_eq_div (c : Col) :
    c.naFrac = (c.missingCount : Rat) / (c.vals.length : Rat) := by
  unfold Col.naFrac
  rw [Rat.mkRat_eq_div, Int.cast_natCast]

/-! ### Fill-stage lemmas -/

/-- No cell of the list is the missing-marker. -/
def noMissing (l : List Cell) : Prop := ∀ v ∈ l, v.isMissing = false

/-- Every cell of the list is the missing-marker. -/
def allMissing (l : List Cell) : Prop := ∀ v ∈ l, v.isMissing = true

/-- The forward-fill state only ever holds a non-missing cell. -/
def GoodLast (last : Option Cell) : Prop := ∀ w, last = some w → w.isMissing = false

theorem goodLast_none : GoodLast none := by intro w h; cases h

theorem goodLast_some {w : Cell} (h : w.isMissing = false) : GoodLast (some w) := by
  intro u hu; cases hu; exact h

@[simp] theorem isMissing_missing : Cell.missing.isMissing = true := rfl

theorem ffillGo_nil (last : Option Cell) : ffillGo last [] = [] := rfl

theorem ffillGo_missing (last : Option Cell) (rest : List Cell) :
    ffillGo last (.missing :: rest) = (last.getD .missing) :: ffillGo last rest := rfl

theorem ffillGo_cons_not_missing (last : Option Cell) {v : Cell} (rest : List Cell)
    (h : v.isMissing = false) :
    ffillGo last (v :: rest) = v :: ffillGo (some v) rest := by
  cases v with
  | str s => rfl
  | num q => rfl
  | missing => simp [Cell.isMissing] at h

theorem ffillGo_length (last : Option Cell) (l : List Cell) :
    (ffillGo last l).length = l.length := by
  induction l generalizing last with
  | nil => rfl
  | cons v rest ih =>
    cases hv : v.isMissing
    · rw [ffillGo_cons_not_missing last rest hv]; simp [ih]
    · cases v with
      | missing => rw [ffillGo_missing]; simp [ih]
      | str s => simp [Cell.isMissing] at hv
      | num q => simp [Cell.isMissing] at hv

theorem ffillGo_of_noMissing (last : Option Cell) (l : List Cell) (h : noMissing l) :
    ffillGo last l = l := by
  induction l generalizing last with
  | nil => rfl
  | cons v rest ih =>
    have hv := h v (List.mem_cons_self v rest)
    rw [ffillGo_cons_not_missing last rest hv]
    rw [ih (some v) fun u hu => h u (List.mem_cons_of_mem v hu)]

theorem ffillGo_none_of_allMissing (l : List Cell) (h : allMissing l) :
    ffillGo none l = l := by
  induction l with
  | nil => rfl
  | cons v rest ih =>
    have hv := h v (List.mem_cons_self v rest)
    cases v with
    | missing =>
      rw [ffillGo_missing]
      simp [ih fun u hu => h u (List.mem_cons_of_mem _ hu)]
    | str s => simp [Cell.isMissing] at hv
    | num q => simp [Cell.isMissing] at hv

theorem ffillGo_some_noMissing {w : Cell} (hw : w.isMissing = false) (l : List Cell) :
    noMissing (ffillGo (some w) l) := by
  induction l generalizing w with
  | nil => intro v hv; simp [ffillGo_nil] at hv
  | cons v rest ih =>
    intro u hu
    cases hv : v.isMissing
    · rw [ffillGo_cons_not_missing _ rest hv] at hu
      rcases List.mem_cons.mp hu with h1 | h1
      · rw [h1]; exact hv
      · exact ih hv u h1
    · cases v with
      | missing =>
        rw [ffillGo_missing] at hu
        rcases List.mem_cons.mp hu with h1 | h1
        · rw [h1]; exact hw
        · exact ih hw u h1
      | str s => simp [Cell.isMissing] at hv
      | num q => simp [Cell.isMissing] at hv

theorem ffillGo_idem (last : Option Cell) (l : List Cell) (h : GoodLast last) :
    ffillGo last (ffillGo last l) = ffillGo last l := by
  induction l generalizing last with
  | nil => rfl
  | cons v rest ih =>
    cases hv : v.isMissing
    · rw [ffillGo_cons_not_missing last rest hv,
        ffillGo_cons_not_missing last _ hv,
        ih (some v) (goodLast_some hv)]
    · cases v with
      | missing =>
        rw [ffillGo_missing]
        cases hlast : last with
        | none =>
          simp only [Option.getD_none]
          rw [ffillGo_missing, ih none goodLast_none]
          simp
        | some w =>
          have hw : w.isMissing = false := h w hlast
          simp only [Option.getD_some]
          rw [ffillGo_cons_not_missing _ _ hw, ih (some w) (goodLast_some hw)]
      | str s => simp [Cell.isMissing] at hv
      | num q => simp [Cell.isMissing] at hv

theorem ffillGo_countP_le (last : Option Cell) (l : List Cell) (h : GoodLast last) :
    (ffillGo last l).countP Cell.isMissing ≤ l.countP Cell.isMissing := by
  induction l generalizing last with
  | nil => simp [ffillGo_nil]
  | cons v rest ih =>
    cases hv : v.isMissing
    · rw [ffillGo_cons_not_missing last rest hv]
      simp only [List.countP_cons, hv, if_false]
      exact ih (some v) (goodLast_some hv)
    · cases v with
      | missing =>
        rw [ffillGo_missing]
        cases hlast : last with
        | none =>
          simp only [Option.getD_none, List.countP_cons, isMissing_missing, if_true]
          exact Nat.add_le_add_right (ih none goodLast_none) 1
        | some w =>
          have hw : w.isMissing = false := h w hlast
          simp only [Option.getD_some, List.countP_cons, hw, if_false, isMissing_missing,
            if_true, Nat.add_zero]
          exact le_trans (ih (some w) (goodLast_some hw)) (Nat.le_add_right _ 1)
      | str s => simp [Cell.isMissing] at hv
      | num q => simp [Cell.isMissing] at hv

theorem ffillGo_none_append (m x : List Cell) (h : allMissing m) :
    ffillGo none (m ++ x) = m ++ ffillGo none x := by
  induction m with
  | nil => rfl
  | cons v rest ih =>
    have hv := h v (List.mem_cons_self v rest)
    cases v with
    | missing =>
      rw [List.cons_append, ffillGo_missing]
      simp [ih fun u hu => h u (List.mem_cons_of_mem _ hu)]
    | str s => simp [Cell.isMissing] at hv
    | num q => simp [Cell.isMissing] at hv

theorem noMissing_reverse {l : List Cell} (h : noMissing l) : noMissing l.reverse :=
  fun v hv => h v (List.mem_reverse.mp hv)

theorem allMissing_reverse {l : List Cell} (h : allMissing l) : allMissing l.reverse :=
  fun v hv => h v (List.mem_reverse.mp hv)

theorem ffillList_length (l : List Cell) : (ffillList l).length = l.length :=
  ffillGo_length none l

theorem bfillList_length (l : List Cell) : (bfillList l).length = l.length := by
  unfold bfillList
  rw [List.length_reverse, ffillList_length, List.length_reverse]

theorem ffillList_of_noMissing {l : List Cell} (h : noMissing l) : ffillList l = l :=
  ffillGo_of_noMissing none l h

theorem bfillList_of_noMissing {l : List Cell} (h : noMissing l) : bfillList l = l := by
  unfold bfillList
  rw [ffillList_of_noMissing (noMissing_reverse h), List.reverse_reverse]

theorem ffillList_of_allMissing {l : List Cell} (h : allMissing l) : ffillList l = l :=
  ffillGo_none_of_allMissing l h

theorem bfillList_of_allMissing {l : List Cell} (h : allMissing l) : bfillList l = l := by
  unfold bfillList
  rw [ffillList_of_allMissing (allMissing_reverse h), List.reverse_reverse]

theorem ffillList_idem (l : List Cell) : ffillList (ffillList l) = ffillList l :=
  ffillGo_idem none l goodLast_none

theorem ffillList_countP_le (l : List Cell) :
    (ffillList l).countP Cell.isMissing ≤ l.countP Cell.isMissing :=
  ffillGo_countP_le none l goodLast_none

theorem bfillList_countP_le (l : List Cell) :
    (bfillList l).countP Cell.isMissing ≤ l.countP Cell.isMissing := by
  unfold bfillList
  rw [List.countP_reverse]
  exact le_trans (ffillList_countP_le l.reverse) (le_of_eq (List.countP_reverse _ _))

/-- A list with a non-missing cell, forward- then backward-filled, has
no missing cell left: the forward pass fills everything after the first
non-missing value, the backward pass the leading run. -/
theorem bfill_ffill_complete {l : List Cell} (h : ∃ v ∈ l, v.isMissing = false) :
    noMissing (bfillList (ffillList l)) := by
  have hdne : l.dropWhile Cell.isMissing ≠ [] := by
    intro hnil
    obtain ⟨v, hv, hvm⟩ := h
    have := List.dropWhile_eq_nil_iff.mp hnil v hv
    rw [hvm] at this
    exact Bool.false_ne_true this
  cases hd : l.dropWhile Cell.isMissing with
  | nil => exact absurd hd hdne
  | cons w rest =>
    have hw : w.isMissing = false := dropWhile_head_false Cell.isMissing l hd
    have hm : allMissing (l.takeWhile Cell.isMissing) :=
      fun v hv => List.mem_takeWhile_imp hv
    have hsplit : l = l.takeWhile Cell.isMissing ++ (w :: rest) := by
      rw [← hd, List.takeWhile_append_dropWhile]
    have hff : ffillList l =
        l.takeWhile Cell.isMissing ++ (w :: ffillGo (some w) rest) := by
      unfold ffillList
      conv_lhs => rw [hsplit]
      rw [ffillGo_none_append _ _ hm, ffillGo_cons_not_missing none rest hw]
    have hT : noMissing (w :: ffillGo (some w) rest) := by
      intro v hv
      rcases List.mem_cons.mp hv with h1 | h1
      · rw [h1]; exact hw
      · exact ffillGo_some_noMissing hw rest v h1
    rw [hff]
    unfold bfillList ffillList
    intro v hv
    rw [List.mem_reverse] at hv
    rw [List.reverse_append] at hv
    cases hrev : (w :: ffillGo (some w) rest).reverse with
    | nil => exact absurd (List.reverse_eq_nil_iff.mp hrev) (List.cons_ne_nil _ _)
    | cons a R =>
      have ha : a.isMissing = false := by
        refine hT a ?_
        rw [← List.mem_reverse, hrev]
        exact List.mem_cons_self a R
      rw [hrev, List.cons_append, ffillGo_cons_not_missing none _ ha] at hv
      rcases List.mem_cons.mp hv with h1 | h1
      · rw [h1]; exact ha
      · exact ffillGo_some_noMissing ha _ v h1

@[simp] theorem zeroFill_not_missing (v : Cell) : (zeroFill v).isMissing = false := by
  cases v <;> rfl

theorem zeroFill_of_not_missing {v : Cell} (h : v.isMissing = false) : zeroFill v = v := by
  cases v with
  | missing => simp at h
  | str s => rfl
  | num q => rfl

theorem zeroFill_noMissing (l : List Cell) : noMissing (l.map zeroFill) := by
  intro v hv
  obtain ⟨u, _, hu⟩ := List.mem_map.mp hv
  rw [← hu]
  exact zeroFill_not_missing u

/-! Facts about `fillVals`, the per-column fill dispatch. -/

theorem fillVals_length (f : String) (l : List Cell) : (fillVals f l).length = l.length := by
  unfold fillVals
  by_cases h1 : f = "ffill"
  · simp only [h1, if_true]
    rw [bfillList_length, ffillList_length]
  · by_cases h2 : f = "zero" <;>
      simp [h1, h2, bfillList_length, ffillList_length]

theorem fillVals_of_noMissing (f : String) {l : List Cell} (h : noMissing l) :
    fillVals f l = l := by
  unfold fillVals
  by_cases h1 : f = "ffill"
  · simp only [h1, if_true]
    rw [ffillList_of_noMissing h, bfillList_of_noMissing h]
  · by_cases h2 : f = "zero"
    · simp only [h1, if_false, h2, if_true]
      exact map_eq_self_of _ _ fun v hv => zeroFill_of_not_missing (h v hv)
    · simp only [h1, if_false, h2]
      exact ffillList_of_noMissing h

theorem fillVals_countP_le (f : String) (l : List Cell) :
    (fillVals f l).countP Cell.isMissing ≤ l.countP Cell.isMissing := by
  unfold fillVals
  by_cases h1 : f = "ffill"
  · simp only [h1, if_true]
    exact le_trans (bfillList_countP_le _) (ffillList_countP_le l)
  · by_cases h2 : f = "zero"
    · have hz : (l.map zeroFill).countP Cell.isMissing = 0 :=
        List.countP_eq_zero.mpr fun v hv => by simp [zeroFill_noMissing l v hv]
      simp [h1, h2, hz]
    · simp only [h1, if_false, h2]
      exact ffillList_countP_le l

theorem fillVals_idem (f : String) (l : List Cell) :
    fillVals f (fillVals f l) = fillVals f l := by
  by_cases h1 : f = "ffill"
  · by_cases hall : ∃ v ∈ l, v.isMissing = false
    · exact fillVals_of_noMissing f (by rw [h1]; exact bfill_ffill_complete hall)
    · have ham : allMissing l := by
        intro v hv
        cases hvm : v.isMissing
        · exact absurd ⟨v, hv, hvm⟩ hall
        · rfl
      have heq : fillVals f l = l := by
        unfold fillVals
        simp only [h1, if_true]
        rw [ffillList_of_allMissing ham, bfillList_of_allMissing ham]
      rw [heq, heq]
  · by_cases h2 : f = "zero"
    · refine fillVals_of_noMissing f ?_
      unfold fillVals
      simp only [h1, if_false, h2, if_true]
      exact zeroFill_noMissing l
    · show fillVals f (fillVals f l) = fillVals f l
      unfold fillVals
      simp only [h1, if_false, h2]
      exact ffillList_idem l

/-! ### Column-level lemmas for the cleaning pipeline -/

/-- No cell of the list is a string. -/
def noStr (l : List Cell) : Prop := ∀ v ∈ l, v.isStr = false

/-- The forward-fill state never holds a string when the column has none. -/
def GoodLastStr (last : Option Cell) : Prop := ∀ w, last = some w → w.isStr = false

theorem ffillGo_noStr (last : Option Cell) (l : List Cell)
    (hl : noStr l) (hlast : GoodLastStr last) : noStr (ffillGo last l) := by
  induction l generalizing last with
  | nil => intro v hv; simp [ffillGo_nil] at hv
  | cons v rest ih =>
    intro u hu
    have hrest : noStr rest := fun a ha => hl a (List.mem_cons_of_mem v ha)
    cases hv : v.isMissing
    · rw [ffillGo_cons_not_missing last rest hv] at hu
      rcases List.mem_cons.mp hu with h1 | h1
      · rw [h1]; exact hl v (List.mem_cons_self v rest)
      · exact ih (some v) hrest (fun w hw => by cases hw; exact hl v (List.mem_cons_self v rest)) u h1
    · cases v with
      | missing =>
        rw [ffillGo_missing] at hu
        rcases List.mem_cons.mp hu with h1 | h1
        · cases hlv : last with
          | none => rw [h1, hlv]; rfl
          | some w => rw [h1, hlv]; exact hlast w hlv
        · exact ih last hrest hlast u h1
      | str s => simp [Cell.isMissing] at hv
      | num q => simp [Cell.isMissing] at hv

theorem goodLastStr_none : GoodLastStr none := by intro w h; cases h

theorem noStr_reverse {l : List Cell} (h : noStr l) : noStr l.reverse :=
  fun v hv => h v (List.mem_reverse.mp hv)

theorem ffillList_noStr {l : List Cell} (h : noStr l) : noStr (ffillList l) :=
  ffillGo_noStr none l h goodLastStr_none

theorem bfillList_noStr {l : List Cell} (h : noStr l) : noStr (bfillList l) := by
  unfold bfillList
  exact noStr_reverse (ffillList_noStr (noStr_reverse h))

theorem zeroFill_noStr {l : List Cell} (h : noStr l) : noStr (l.map zeroFill) := by
  intro v hv
  obtain ⟨u, hu, huv⟩ := List.mem_map.mp hv
  rw [← huv]
  cases u with
  | missing => rfl
  | str s => exact h _ hu
  | num q => rfl

theorem fillVals_noStr (f : String) {l : List Cell} (h : noStr l) :
    noStr (fillVals f l) := by
  unfold fillVals
  by_cases h1 : f = "ffill"
  · simp only [h1, if_true]
    exact bfillList_noStr (ffillList_noStr h)
  · by_cases h2 : f = "zero"
    · simp only [h1, if_false, h2, if_true]
      exact zeroFill_noStr h
    · simp only [h1, if_false, h2]
      exact ffillList_noStr h

theorem hasStr_eq_false_iff (c : Col) : c.hasStr = false ↔ noStr c.vals := by
  unfold Col.hasStr noStr
  rw [← Bool.not_eq_true, List.any_eq_true]
  constructor
  · intro h v hv
    cases hs : v.isStr
    · rfl
    · exact absurd ⟨v, hv, hs⟩ h
  · rintro h ⟨v, hv, hs⟩
    rw [h v hv] at hs
    exact Bool.false_ne_true hs

theorem normStrCol_name (c : Col) : (normStrCol c).name = c.name := by
  unfold normStrCol
  by_cases h : c.hasStr <;> simp [h]

theorem dropDecision_congr {c₁ c₂ : Col} (h : c₁.vals = c₂.vals) (t : Rat) :
    c₁.dropDecision t = c₂.dropDecision t := by
  unfold Col.dropDecision Col.naFrac Col.missingCount
  rw [h]

theorem map_normStrCell_noMissing (l : List Cell) : noMissing (l.map normStrCell) := by
  intro v hv
  obtain ⟨u, _, hu⟩ := List.mem_map.mp hv
  rw [← hu]
  exact normStrCell_not_missing u

theorem hasStr_map_normStrCell (n : String) {l : List Cell} (hne : l ≠ []) :
    (Col.mk n (l.map normStrCell)).hasStr = true := by
  unfold Col.hasStr
  rw [List.any_eq_true]
  cases l with
  | nil => exact absurd rfl hne
  | cons v rest =>
    exact ⟨normStrCell v, List.mem_map_of_mem normStrCell (List.mem_cons_self v rest),
      normStrCell_isStr v⟩

/-- The core stability fact behind idempotence: a column that survived
one run of `basic_clean` is a fixed point of every stage of a second
run with the same parameters, and is not dropped again. -/
theorem clean_col_stable (c₀ : Col) (t : Rat) (f : String)
    (hkeep : (normStrCol (stripName c₀)).dropDecision t = false) :
    stripName (fillCol f (normStrCol (stripName c₀))) =
        fillCol f (normStrCol (stripName c₀)) ∧
    normStrCol (fillCol f (normStrCol (stripName c₀))) =
        fillCol f (normStrCol (stripName c₀)) ∧
    (fillCol f (normStrCol (stripName c₀))).dropDecision t = false ∧
    fillCol f (fillCol f (normStrCol (stripName c₀))) =
        fillCol f (normStrCol (stripName c₀)) := by
  set c₂ := normStrCol (stripName c₀) with hc₂
  set c' := fillCol f c₂ with hc'
  have hname₂ : c₂.name = pytrim c₀.name := by
    rw [hc₂, normStrCol_name]; rfl
  have hname' : c'.name = c₂.name := rfl
  have hA : stripName c' = c' := by
    show (⟨pytrim c'.name, c'.vals⟩ : Col) = c'
    rw [hname', hname₂, pytrim_idem, ← hname₂, ← hname']
  by_cases hstr : (stripName c₀).hasStr
  · -- textual column: step 2 replaced every cell by a string, so the
    -- fill pass is the identity and re-normalization changes nothing
    have hvals₂ : c₂.vals = c₀.vals.map normStrCell := by
      rw [hc₂]
      unfold normStrCol
      rw [if_pos hstr]
      rfl
    have hnm : noMissing c₂.vals := by rw [hvals₂]; exact map_normStrCell_noMissing _
    have hvals' : c'.vals = c₂.vals := by
      rw [hc']
      show fillVals f c₂.vals = c₂.vals
      exact fillVals_of_noMissing f hnm
    have hne : c₀.vals ≠ [] := by
      intro hnil
      unfold Col.hasStr stripName at hstr
      rw [hnil] at hstr
      simp at hstr
    have hhas' : c'.hasStr = true := by
      have : c'.hasStr = (Col.mk c'.name (c₀.vals.map normStrCell)).hasStr := by
        unfold Col.hasStr
        rw [hvals', hvals₂]
      rw [this]
      exact hasStr_map_normStrCell _ hne
    refine ⟨hA, ?_, ?_, ?_⟩
    · unfold normStrCol
      rw [if_pos hhas']
      have : c'.vals.map normStrCell = c'.vals := by
        rw [hvals', hvals₂, List.map_map]
        exact List.map_congr_left fun a _ => normStrCell_idem a
      rw [this]
    · rw [dropDecision_congr hvals' t]
      exact hkeep
    · show fillCol f c' = c'
      unfold fillCol
      rw [show fillVals f c'.vals = c'.vals from by
        rw [hvals']; exact fillVals_of_noMissing f hnm]
  · -- non-textual column: step 2 skipped it; the fill pass can only
    -- shrink the missing count and is idempotent
    have hstr' : (stripName c₀).hasStr = false := by
      cases h : (stripName c₀).hasStr
      · rfl
      · exact absurd h hstr
    have hvals₂ : c₂.vals = c₀.vals := by
      rw [hc₂]
      unfold normStrCol
      rw [if_neg (by rw [hstr']; exact Bool.false_ne_true)]
      rfl
    have hnostr : noStr c₂.vals := by
      have := (hasStr_eq_false_iff (stripName c₀)).mp hstr'
      rw [hvals₂]
      exact this
    have hvals' : c'.vals = fillVals f c₂.vals := rfl
    have hnostr' : noStr c'.vals := by rw [hvals']; exact fillVals_noStr f hnostr
    have hhas' : c'.hasStr = false := (hasStr_eq_false_iff c').mpr hnostr'
    refine ⟨hA, ?_, ?_, ?_⟩
    · unfold normStrCol
      rw [if_neg (by rw [hhas']; exact Bool.false_ne_true)]
    · -- the drop decision stays negative: filling cannot raise na_frac
      unfold Col.dropDecision at hkeep ⊢
      rw [Bool.and_eq_false_iff] at hkeep ⊢
      have hlen : c'.vals.length = c₂.vals.length := by
        rw [hvals', fillVals_length]
      rcases hkeep with hkeep | hkeep
      · left
        rw [hlen]
        exact hkeep
      · cases hl : c₂.vals.length with
        | zero => left; simp [hlen, hl]
        | succ k =>
          right
          rw [decide_eq_false_iff_not] at hkeep ⊢
          rw [not_lt] at hkeep ⊢
          refine le_trans ?_ hkeep
          rw [naFrac_eq_div, naFrac_eq_div]
          unfold Col.missingCount
          rw [hvals', fillVals_length]
          have hpos : (0 : Rat) < (c₂.vals.length : Rat) := by
            rw [hl]; positivity
          rw [div_le_div_iff_of_pos_right hpos]
          exact_mod_cast fillVals_countP_le f c₂.vals
    · show fillCol f c' = c'
      unfold fillCol
      rw [hvals', fillVals_idem]
      rfl

/-- `contains` is the boolean of membership. -/
theorem contains_eq_false_iff {l : List String} {a : String} :
    l.contains a = false ↔ a ∉ l := by
  constructor
  · intro h hmem
    have hc : l.contains a = true := List.elem_iff.mpr hmem
    rw [h] at hc
    exact Bool.false_ne_true hc
  · intro h
    cases hc : l.contains a
    · rfl
    · exact absurd (List.elem_iff.mp hc) h

/-- Every column of a `basic_clean` output is a fixed point of each
stage of a second run with the same parameters (a kept column's own
decision is negative: a positive one would put its label in
`drop_cols` and `drop` would have removed it). -/
theorem basic_clean_output_stable (g : Grid) (t : Rat) (f : String) :
    ∀ c' ∈ (basic_clean g t f).1.cols,
      stripName c' = c' ∧ normStrCol c' = c' ∧ c'.dropDecision t = false ∧
        fillCol f c' = c' := by
  intro c' hc'
  obtain ⟨c₂, hc₂mem, hc₂eq⟩ := List.mem_map.mp hc'
  rw [List.mem_filter] at hc₂mem
  obtain ⟨hc₂grid, hc₂keep⟩ := hc₂mem
  obtain ⟨c₀, _, hc₀eq⟩ := List.mem_map.mp hc₂grid
  have hkeep : c₂.dropDecision t = false := by
    cases h : c₂.dropDecision t
    · rfl
    · exfalso
      have hmemdrop : c₂.name ∈
          ((normGrid g).cols.filter fun c => c.dropDecision t).map Col.name :=
        List.mem_map_of_mem Col.name (List.mem_filter.mpr ⟨hc₂grid, h⟩)
      rw [Bool.not_eq_true'] at hc₂keep
      exact absurd hmemdrop (contains_eq_false_iff.mp hc₂keep)
  rw [← hc₂eq, ← hc₀eq]
  exact clean_col_stable c₀ t f (by rw [hc₀eq]; exact hkeep)

/-- **C2**: `clean` is idempotent — running `basic_clean` on its own
output with the same `drop_threshold` and `fill_method` returns that
output unchanged and reports no further dropped columns. -/
theorem basic_clean_idempotent (g : Grid) (t : Rat) (f : String) :
    basic_clean (basic_clean g t f).1 t f = ((basic_clean g t f).1, []) := by
  have hmem := basic_clean_output_stable g t f
  set G := (basic_clean g t f).1 with hGdef
  have hnorm : G.cols.map (fun c => normStrCol (stripName c)) = G.cols :=
    map_eq_self_of _ _ fun c hc => by rw [(hmem c hc).1, (hmem c hc).2.1]
  have hfilter_nil : G.cols.filter (fun c => c.dropDecision t) = [] :=
    List.filter_eq_nil_iff.mpr fun c hc => by
      rw [(hmem c hc).2.2.1]
      exact Bool.false_ne_true
  have hkeep_nil :
      G.cols.filter (fun c => ! (([] : List String)).contains c.name) = G.cols :=
    List.filter_eq_self.mpr fun c _ => rfl
  have hfill : G.cols.map (fillCol f) = G.cols :=
    map_eq_self_of _ _ fun c hc => (hmem c hc).2.2.2
  show basic_clean G t f = (G, [])
  unfold basic_clean normGrid
  dsimp only
  rw [hnorm, hfilter_nil, List.map_nil, hkeep_nil, hfill]

/-! ### The drop decision -/

/-- For a non-negative threshold the length guard is redundant: the
decision is exactly `na_frac > t` (an empty column has `na_frac = 0`
here, matching pandas' `NaN > t = False`). -/
theorem dropDecision_eq_of_nonneg {t : Rat} (h0 : 0 ≤ t) (c : Col) :
    c.dropDecision t = decide (t < c.naFrac) := by
  unfold Col.dropDecision
  cases hl : c.vals with
  | nil =>
    have hfrac : c.naFrac = 0 := by
      rw [naFrac_eq_div]
      unfold Col.missingCount
      rw [hl]
      simp
    rw [hfrac]
    simp [not_lt.mpr h0]
  | cons v rest =>
    have hpos : 0 < c.vals.length := by rw [hl]; simp
    simp [hpos]

/-- Under distinct column names, a name appears in the mapped filter
exactly when that column satisfies the predicate. -/
theorem mem_map_name_filter_iff {cols : List Col} (hn : (cols.map Col.name).Nodup)
    (p : Col → Bool) {c : Col} (hc : c ∈ cols) :
    c.name ∈ (cols.filter p).map Col.name ↔ p c = true := by
  constructor
  · intro h
    obtain ⟨c₂, hc₂, hname⟩ := List.mem_map.mp h
    rw [List.mem_filter] at hc₂
    have heq : c₂ = c := List.inj_on_of_nodup_map hn hc₂.1 hc hname
    rw [← heq]
    exact hc₂.2
  · intro hp
    exact List.mem_map_of_mem Col.name (List.mem_filter.mpr ⟨hc, hp⟩)

/-- The output grid's column names are the label-kept columns' names
(the fill stage preserves names). -/
theorem basic_clean_colNames (g : Grid) (t : Rat) (f : String) :
    (basic_clean g t f).1.colNames =
      ((normGrid g).cols.filter fun c =>
        ! (basic_clean g t f).2.contains c.name).map Col.name := by
  show (((normGrid g).cols.filter fun c =>
      ! (basic_clean g t f).2.contains c.name).map (fillCol f)).map Col.name = _
  rw [List.map_map]
  exact List.map_congr_left fun a _ => rfl

/-- A name is in the dropped list iff some normalized column carrying
that name has a positive drop decision. -/
theorem mem_dropped_iff (g : Grid) (t : Rat) (f : String) (a : String) :
    a ∈ (basic_clean g t f).2 ↔
      ∃ c₂ ∈ (normGrid g).cols, c₂.name = a ∧ c₂.dropDecision t = true := by
  show a ∈ ((normGrid g).cols.filter fun c => c.dropDecision t).map Col.name ↔ _
  rw [List.mem_map]
  constructor
  · rintro ⟨c₂, hmem, hname⟩
    rw [List.mem_filter] at hmem
    exact ⟨c₂, hmem.1, hname, hmem.2⟩
  · rintro ⟨c₂, hmem, hname, hdec⟩
    exact ⟨c₂, List.mem_filter.mpr ⟨hmem, hdec⟩, hname⟩

/-- `drop(columns=...)` removes by label: a column's name survives into
the output exactly when it is not in the dropped list. -/
theorem mem_output_iff_not_dropped (g : Grid) (t : Rat) (f : String)
    {c : Col} (hc : c ∈ (normGrid g).cols) :
    c.name ∈ (basic_clean g t f).1.colNames ↔ c.name ∉ (basic_clean g t f).2 := by
  rw [basic_clean_colNames, List.mem_map]
  constructor
  · rintro ⟨c₂, hmem, hname⟩
    rw [List.mem_filter, Bool.not_eq_true'] at hmem
    rw [← hname]
    exact contains_eq_false_iff.mp hmem.2
  · intro hnd
    refine ⟨c, List.mem_filter.mpr ⟨hc, ?_⟩, rfl⟩
    rw [Bool.not_eq_true']
    exact contains_eq_false_iff.mpr hnd

/-- **C4 (amended)**: the strict comparison `na_frac > t` is made per
column, but removal is by normalized label: for `t ∈ [0,1]`, a name is
in the dropped list iff some column with that name has missing-fraction
strictly above `t`, and a name survives into the output iff it is not
in the dropped list.  When the normalized names are distinct this is
exactly the per-column rule — a column is dropped iff its own fraction
strictly exceeds `t`, and a fraction-`= t` column always survives.
With duplicate normalized labels, `df.drop(columns=drop_cols)` also
removes a fraction-`≤ t` column that shares its label with a
fraction-`> t` column (see `claim_C4_counterexample`). -/
theorem basic_clean_drop_iff (g : Grid) (t : Rat) (f : String)
    (h0 : 0 ≤ t) (h1 : t ≤ 1) :
    ∀ c ∈ (normGrid g).cols,
      (c.name ∈ (basic_clean g t f).2 ↔
        ∃ c₂ ∈ (normGrid g).cols, c₂.name = c.name ∧ t < c₂.naFrac) ∧
      (c.name ∈ (basic_clean g t f).1.colNames ↔
        c.name ∉ (basic_clean g t f).2) ∧
      ((normGrid g).colNames.Nodup →
        ((t < c.naFrac ↔ c.name ∈ (basic_clean g t f).2) ∧
          (c.naFrac ≤ t ↔ c.name ∈ (basic_clean g t f).1.colNames))) := by
  intro c hc
  have hiff1 : c.name ∈ (basic_clean g t f).2 ↔
      ∃ c₂ ∈ (normGrid g).cols, c₂.name = c.name ∧ t < c₂.naFrac := by
    rw [mem_dropped_iff]
    constructor
    · rintro ⟨c₂, hm, hn2, hd⟩
      rw [dropDecision_eq_of_nonneg h0] at hd
      exact ⟨c₂, hm, hn2, of_decide_eq_true hd⟩
    · rintro ⟨c₂, hm, hn2, hlt⟩
      refine ⟨c₂, hm, hn2, ?_⟩
      rw [dropDecision_eq_of_nonneg h0]
      exact decide_eq_true hlt
  refine ⟨hiff1, mem_output_iff_not_dropped g t f hc, fun hn => ?_⟩
  have hnd : ((normGrid g).cols.map Col.name).Nodup := hn
  have hdir : t < c.naFrac ↔ c.name ∈ (basic_clean g t f).2 := by
    rw [hiff1]
    constructor
    · intro hlt
      exact ⟨c, hc, rfl, hlt⟩
    · rintro ⟨c₂, hm, hname, hlt⟩
      have heq : c₂ = c := List.inj_on_of_nodup_map hnd hm hc hname
      rwa [heq] at hlt
  refine ⟨hdir, ?_⟩
  rw [mem_output_iff_not_dropped g t f hc, ← hdir]
  exact not_lt.symm

/-- The refuting grid for claim C4 as stated: two numeric columns whose
names strip to the same label `a`, one with missing-fraction exactly
`3/5`, the other with `4/5`. -/
def gC4 : Grid :=
  ⟨[⟨"a ", [.num 1, .num 2, .missing, .missing, .missing]⟩,
    ⟨"a", [.num 1, .missing, .missing, .missing, .missing]⟩]⟩

/-- **C4 (counterexample)**: at threshold `t = 3/5`, the first column of
`gC4` has missing-fraction exactly `t` — under the claim it is "never
dropped" — yet `basic_clean` returns dropped list `["a"]` and an output
grid with no columns at all: `df.drop(columns=["a"])` removed both
same-labeled columns, the fraction-`= t` one included. -/
theorem claim_C4_counterexample :
    ((normGrid gC4).cols.getD 0 default).naFrac = mkRat 3 5 ∧
    ¬ mkRat 3 5 < mkRat 3 5 ∧
    ((normGrid gC4).cols.getD 0 default).name = "a" ∧
    (basic_clean gC4 (mkRat 3 5) "ffill").2 = ["a"] ∧
    (basic_clean gC4 (mkRat 3 5) "ffill").1.cols = [] := by
  decide

/-! ### What the missing-fraction is computed on (claim C1) -/

/-- **C1 (amended)**: the drop decision is made on the grid state after
string-cell normalization and counts only cells then in the
missing-marker state, never the empty strings step 2 produced.  For a
column with no string cell, step 2 is skipped and the original
missing-markers still count: its decision fraction is its original
missing-fraction.  But for a column containing a string cell, step 2
converts every cell — including cells that were missing-markers before
step 2 — to a string, so its decision-time missing-fraction is `0` and
it never causes a drop: a stripped name lands in the dropped list
exactly when some column carrying that stripped name has no string cell
and original missing-fraction strictly above `t`. -/
theorem basic_clean_missing_basis (g : Grid) (t : Rat) (f : String)
    (h0 : 0 ≤ t) (h1 : t ≤ 1) :
    ∀ c ∈ g.cols,
      (c.hasStr = true → (normStrCol (stripName c)).naFrac = 0) ∧
      (c.hasStr = false → (normStrCol (stripName c)).naFrac = c.naFrac) ∧
      (pytrim c.name ∈ (basic_clean g t f).2 ↔
        ∃ c₀ ∈ g.cols, pytrim c₀.name = pytrim c.name ∧
          c₀.hasStr = false ∧ t < c₀.naFrac) := by
  have hname : ∀ c₀ : Col, (normStrCol (stripName c₀)).name = pytrim c₀.name := by
    intro c₀
    rw [normStrCol_name]
    rfl
  have hhasStr : ∀ c₀ : Col, (stripName c₀).hasStr = c₀.hasStr := fun _ => rfl
  have hfrac0 : ∀ c₀ : Col, c₀.hasStr = true →
      (normStrCol (stripName c₀)).naFrac = 0 := by
    intro c₀ htrue
    have happ : normStrCol (stripName c₀) =
        ⟨(stripName c₀).name, (stripName c₀).vals.map normStrCell⟩ := by
      unfold normStrCol
      rw [if_pos (by rw [hhasStr c₀]; exact htrue)]
    rw [happ, naFrac_eq_div]
    unfold Col.missingCount
    have hcnt : ((stripName c₀).vals.map normStrCell).countP Cell.isMissing = 0 :=
      List.countP_eq_zero.mpr fun v hv => by
        simp [map_normStrCell_noMissing (stripName c₀).vals v hv]
    simp [hcnt]
  have hfraceq : ∀ c₀ : Col, c₀.hasStr = false →
      (normStrCol (stripName c₀)).naFrac = c₀.naFrac := by
    intro c₀ hfalse
    have hskip : normStrCol (stripName c₀) = stripName c₀ := by
      unfold normStrCol
      rw [if_neg (by rw [hhasStr c₀, hfalse]; exact Bool.false_ne_true)]
    rw [hskip]
    unfold Col.naFrac Col.missingCount
    rfl
  intro c hc
  refine ⟨hfrac0 c, hfraceq c, ?_⟩
  rw [mem_dropped_iff]
  constructor
  · rintro ⟨c₂, hm2, hn2, hd2⟩
    obtain ⟨c₀, hc₀, hceq⟩ := List.mem_map.mp hm2
    rw [dropDecision_eq_of_nonneg h0] at hd2
    have hlt := of_decide_eq_true hd2
    cases hstr : c₀.hasStr with
    | false =>
      refine ⟨c₀, hc₀, ?_, hstr, ?_⟩
      · rw [← hceq, hname c₀] at hn2
        exact hn2
      · rw [← hceq, hfraceq c₀ hstr] at hlt
        exact hlt
    | true =>
      exfalso
      rw [← hceq, hfrac0 c₀ hstr] at hlt
      exact absurd hlt (not_lt.mpr h0)
  · rintro ⟨c₀, hc₀, hneq, hstr, hlt⟩
    refine ⟨normStrCol (stripName c₀), List.mem_map_of_mem _ hc₀, ?_, ?_⟩
    · rw [hname c₀]
      exact hneq
    · rw [dropDecision_eq_of_nonneg h0]
      refine decide_eq_true ?_
      rw [hfraceq c₀ hstr]
      exact hlt

/-- The one-column grid refuting claim C1 as stated: a textual column
whose cells were missing-markers before step 2. -/
def gC1 : Grid := ⟨[⟨"a", [.str "x", .missing, .missing]⟩]⟩

/-- **C1 (counterexample)**: in `gC1` the column `a` has pre-step-2
missing-fraction `2/3 > 1/2`, so under the claim ("cells that were
missing-markers before step 2 still count as missing when the drop
decision is made") it would be dropped at threshold `1/2`; but
`basic_clean` drops nothing and keeps `a` in the output. -/
theorem claim_C1_counterexample :
    (gC1.cols.getD 0 default).naFrac = mkRat 2 3 ∧ mkRat 1 2 < mkRat 2 3 ∧
    (basic_clean gC1 (mkRat 1 2) "ffill").2 = [] ∧
    "a" ∈ (basic_clean gC1 (mkRat 1 2) "ffill").1.colNames := by
  decide

/-! ### The fill-method fallback (claim C3) -/

/-- **C3 (amended)**: any fill method other than `"ffill"` and `"zero"`
falls back to the forward pass only: the dropped columns are the same
as under `"ffill"`, but the `"ffill"` policy's output is the fallback
output with the backward-fill pass applied on top — the fallback itself
omits that pass, leaving leading missing runs unfilled. -/
theorem basic_clean_fallback_ffill_only (g : Grid) (t : Rat) (f : String)
    (h1 : f ≠ "ffill") (h2 : f ≠ "zero") :
    (basic_clean g t f).2 = (basic_clean g t "ffill").2 ∧
    (basic_clean g t "ffill").1.cols =
      (basic_clean g t f).1.cols.map fun c => ⟨c.name, bfillList c.vals⟩ := by
  constructor
  · rfl
  · show ((normGrid g).cols.filter _).map (fillCol "ffill") =
      (((normGrid g).cols.filter _).map (fillCol f)).map _
    rw [List.map_map]
    refine List.map_congr_left fun c _ => ?_
    show fillCol "ffill" c = ⟨(fillCol f c).name, bfillList (fillCol f c).vals⟩
    unfold fillCol fillVals
    simp [h1, h2]

/-- The one-column grid refuting claim C3 as stated: a leading missing
cell followed by a value. -/
def gC3 : Grid := ⟨[⟨"c", [.missing, .num 1]⟩]⟩

/-- **C3 (counterexample)**: with fill method `"median"` (neither
`"ffill"` nor `"zero"`), `basic_clean` leaves the leading missing cell
unfilled, while the `"ffill"` policy backward-fills it — so the
fallback does not equal the `ffill` policy. -/
theorem claim_C3_counterexample :
    basic_clean gC3 (mkRat 3 5) "median" ≠ basic_clean gC3 (mkRat 3 5) "ffill" ∧
    (basic_clean gC3 (mkRat 3 5) "median").1 =
      Grid.mk [⟨"c", [.missing, .num 1]⟩] ∧
    (basic_clean gC3 (mkRat 3 5) "ffill").1 =
      Grid.mk [⟨"c", [.num 1, .num 1]⟩] := by
  decide

/-! ### Deduplication lemmas -/

/-- `getD` of a mapped list below the length is the function at `getD`. -/
theorem getD_map_lt {α β : Type} (f : α → β) (l : List α) (k : Nat)
    (hk : k < l.length) (d : β) (d0 : α) :
    (l.map f).getD k d = f (l.getD k d0) := by
  rw [List.getD_eq_getElem?_getD, List.getElem?_map, List.getElem?_eq_getElem hk,
    List.getD_eq_getElem l d0 hk]
  rfl

/-- Reading a list back at `0, 1, …, length-1` returns the list. -/
theorem range_map_getD {α : Type} (l : List α) (d : α) :
    (List.range l.length).map (fun i => l.getD i d) = l := by
  apply List.ext_getElem
  · simp
  · intro n h1 h2
    rw [List.getElem_map, List.getElem_range, List.getD_eq_getElem l d h2]

/-- Membership in `keptIndices`: a row survives `drop_duplicates` iff it
is in range and no earlier row has the same comparison key. -/
theorem mem_keptIndices (g : Grid) (s : Option (List String)) (i : Nat) :
    i ∈ keptIndices g s ↔
      i < g.nrows ∧ ∀ j < i, rowKey g s j ≠ rowKey g s i := by
  unfold keptIndices
  rw [List.mem_filter, List.mem_range, Bool.not_eq_true', List.any_eq_false]
  constructor
  · rintro ⟨h1, h2⟩
    refine ⟨h1, fun j hj heq => ?_⟩
    have := h2 j (List.mem_range.mpr hj)
    rw [decide_eq_true heq] at this
    exact this rfl
  · rintro ⟨h1, h2⟩
    refine ⟨h1, fun j hj => ?_⟩
    rw [List.mem_range] at hj
    simp [h2 j hj]

/-- The kept indices are strictly increasing: original row order is
preserved. -/
theorem keptIndices_pairwise (g : Grid) (s : Option (List String)) :
    List.Pairwise (· < ·) (keptIndices g s) :=
  List.Pairwise.filter _ (List.pairwise_lt_range _)

theorem keptIndices_length_le (g : Grid) (s : Option (List String)) :
    (keptIndices g s).length ≤ g.nrows :=
  le_trans (List.length_filter_le _ _) (le_of_eq (List.length_range _))

/-- `selectRows` keeps the column names. -/
theorem selectRows_colNames (g : Grid) (idxs : List Nat) :
    (g.selectRows idxs).colNames = g.colNames := by
  unfold Grid.selectRows Grid.colNames
  rw [List.map_map]
  exact List.map_congr_left fun c _ => rfl

theorem selectRows_nrows_of_ne_nil (g : Grid) (idxs : List Nat)
    (h : g.cols ≠ []) : (g.selectRows idxs).nrows = idxs.length := by
  unfold Grid.selectRows Grid.nrows
  cases hc : g.cols with
  | nil => exact absurd hc h
  | cons c cs => simp

theorem selectRows_nil_cols (g : Grid) (idxs : List Nat) (h : g.cols = []) :
    g.selectRows idxs = ⟨[]⟩ := by
  unfold Grid.selectRows
  rw [h]
  rfl

/-- Each column of `selectRows` has one value per selected index. -/
theorem selectRows_col_lengths (g : Grid) (idxs : List Nat) :
    ∀ c ∈ (g.selectRows idxs).cols, c.vals.length = idxs.length := by
  intro c hc
  obtain ⟨c₀, _, hc₀⟩ := List.mem_map.mp hc
  rw [← hc₀]
  simp

/-- The comparison key of row `k` of `selectRows g idxs` is the key of
row `idxs[k]` of `g`. -/
theorem rowKey_selectRows (g : Grid) (s : Option (List String)) (idxs : List Nat)
    (k : Nat) (hk : k < idxs.length) :
    rowKey (g.selectRows idxs) s k = rowKey g s (idxs.getD k 0) := by
  have hkeys : keyCols (g.selectRows idxs) s =
      (keyCols g s).map fun c => ⟨c.name, idxs.map fun i => c.vals.getD i Cell.missing⟩ := by
    cases s with
    | none => rfl
    | some ss =>
      show ((g.cols.map fun (c : Col) =>
          Col.mk c.name (idxs.map fun i => c.vals.getD i Cell.missing)).filter
            fun (c : Col) => decide (c.name ∈ ss)) =
        (g.cols.filter fun (c : Col) => decide (c.name ∈ ss)).map
          fun (c : Col) => Col.mk c.name (idxs.map fun i => c.vals.getD i Cell.missing)
      rw [List.filter_map]
      exact congrArg
        (List.map fun (c : Col) =>
          Col.mk c.name (idxs.map fun i => c.vals.getD i Cell.missing))
        (List.filter_congr fun c _ => rfl)
  unfold rowKey
  rw [hkeys, List.map_map]
  refine List.map_congr_left fun c _ => ?_
  show (idxs.map fun i => c.vals.getD i Cell.missing).getD k Cell.missing =
    c.vals.getD (idxs.getD k 0) Cell.missing
  exact getD_map_lt _ idxs k hk Cell.missing 0

/-- Row `k` of `selectRows g idxs` is row `idxs[k]` of `g`. -/
theorem row_selectRows (g : Grid) (idxs : List Nat) (k : Nat)
    (hk : k < idxs.length) :
    (g.selectRows idxs).row k = g.row (idxs.getD k 0) := by
  have h := rowKey_selectRows g none idxs k hk
  exact h

/-- Selecting every row in order is the identity (on grids whose
columns all have length `n`). -/
theorem selectRows_range (g : Grid) (n : Nat)
    (h : ∀ c ∈ g.cols, c.vals.length = n) :
    g.selectRows (List.range n) = g := by
  unfold Grid.selectRows
  show Grid.mk _ = g
  have : g.cols.map (fun c => Col.mk c.name
      ((List.range n).map fun i => c.vals.getD i Cell.missing)) = g.cols := by
    refine map_eq_self_of _ _ fun c hc => ?_
    rw [← h c hc, range_map_getD]
  rw [this]

/-- If no two rows share a key, every row is kept. -/
theorem keptIndices_eq_range_of_distinct (g : Grid) (s : Option (List String))
    (h : ∀ j i, j < i → i < g.nrows → rowKey g s j ≠ rowKey g s i) :
    keptIndices g s = List.range g.nrows := by
  unfold keptIndices
  apply List.filter_eq_self.mpr
  intro i hi
  rw [List.mem_range] at hi
  rw [Bool.not_eq_true']
  apply List.any_eq_false.mpr
  intro j hj
  rw [List.mem_range] at hj
  simp [h j i hj hi]

/-- A zero-row grid keeps no indices. -/
theorem keptIndices_nil_of_empty (g : Grid) (s : Option (List String))
    (h0 : g.nrows = 0) : keptIndices g s = [] := by
  unfold keptIndices
  rw [h0]
  rfl

/-- Selecting no rows from a grid whose columns are all empty — the
content of `self.copy()` on a zero-row frame — is the grid itself. -/
theorem selectRows_nil_self (g : Grid) (h : ∀ c ∈ g.cols, c.vals = []) :
    g.selectRows [] = g := by
  unfold Grid.selectRows
  show Grid.mk _ = g
  have hmap : g.cols.map (fun c => Col.mk c.name
      (([] : List Nat).map fun i => c.vals.getD i Cell.missing)) = g.cols := by
    refine map_eq_self_of _ _ fun c hc => ?_
    show Col.mk c.name ([] : List Cell) = c
    rw [← h c hc]
  rw [hmap]

theorem deduplicate_empty_eq (g : Grid) (s : Option (List String))
    (h0 : g.nrows = 0) : deduplicate g s = .ok (g.selectRows [], 0) := by
  unfold deduplicate
  rw [if_pos h0]

theorem deduplicate_none_eq (g : Grid) (h0 : g.nrows ≠ 0) :
    deduplicate g none = .ok (g.selectRows (keptIndices g none),
      g.nrows - (keptIndices g none).length) := by
  unfold deduplicate
  rw [if_neg h0]

theorem deduplicate_some_eq (g : Grid) (ss : List String) (h0 : g.nrows ≠ 0) :
    deduplicate g (some ss) =
      match ss.find? (fun n => ! g.colNames.contains n) with
      | some m => .error (.unknownColumn m)
      | none => .ok (g.selectRows (keptIndices g (some ss)),
          g.nrows - (keptIndices g (some ss)).length) := by
  unfold deduplicate
  rw [if_neg h0]

/-- A successful `deduplicate` is the keep-first row selection (an
empty frame keeps no index, so its early return fits the same form). -/
theorem deduplicate_ok_inv {g : Grid} {s : Option (List String)} {g' : Grid} {n : Nat}
    (h : deduplicate g s = .ok (g', n)) :
    g' = g.selectRows (keptIndices g s) ∧
      n = g.nrows - (keptIndices g s).length := by
  by_cases h0 : g.nrows = 0
  · rw [deduplicate_empty_eq g s h0, Except.ok.injEq, Prod.mk.injEq] at h
    rw [keptIndices_nil_of_empty g s h0]
    refine ⟨h.1.symm, ?_⟩
    rw [← h.2, h0]
    rfl
  · cases s with
    | none =>
      rw [deduplicate_none_eq g h0, Except.ok.injEq, Prod.mk.injEq] at h
      exact ⟨h.1.symm, h.2.symm⟩
    | some ss =>
      rw [deduplicate_some_eq g ss h0] at h
      cases hf : ss.find? (fun n => ! g.colNames.contains n) with
      | some m =>
        rw [hf] at h
        cases h
      | none =>
        rw [hf] at h
        rw [Except.ok.injEq, Prod.mk.injEq] at h
        exact ⟨h.1.symm, h.2.symm⟩

/-- A successful `deduplicate` with an explicit subset on a non-empty
frame means every subset name is a column. -/
theorem deduplicate_ok_subset {g : Grid} {ss : List String} {g' : Grid} {n : Nat}
    (h0 : g.nrows ≠ 0) (h : deduplicate g (some ss) = .ok (g', n)) :
    ss.find? (fun n => ! g.colNames.contains n) = none := by
  cases hf : ss.find? (fun n => ! g.colNames.contains n) with
  | none => rfl
  | some m =>
    rw [deduplicate_some_eq g ss h0, hf] at h
    cases h

/-- **C5**: for every grid and subset (including none), a successful
`deduplicate` returns a grid with at most as many rows, and re-running
`deduplicate` on its own output with the same subset returns it
unchanged with `removedCount = 0`. -/
theorem deduplicate_shrinks_and_idem (g : Grid) (s : Option (List String))
    (g' : Grid) (n : Nat) (h : deduplicate g s = .ok (g', n)) :
    g'.nrows ≤ g.nrows ∧ deduplicate g' s = .ok (g', 0) := by
  obtain ⟨hg', hn⟩ := deduplicate_ok_inv h
  by_cases h0 : g.nrows = 0
  · -- empty frame: the early-returned copy is itself an empty frame
    have hkept : keptIndices g s = [] := keptIndices_nil_of_empty g s h0
    have hg'e : g' = g.selectRows [] := by rw [hg', hkept]
    have h0' : g'.nrows = 0 := by
      rw [hg'e]
      by_cases hc : g.cols = []
      · rw [selectRows_nil_cols g _ hc]
        rfl
      · rw [selectRows_nrows_of_ne_nil g _ hc]
        rfl
    have hvals : ∀ c ∈ g'.cols, c.vals = [] := by
      intro c hc
      rw [hg'e] at hc
      obtain ⟨c₀, _, hc₀⟩ := List.mem_map.mp hc
      rw [← hc₀]
      rfl
    refine ⟨?_, ?_⟩
    · rw [h0']
      exact Nat.zero_le _
    · rw [deduplicate_empty_eq g' s h0', selectRows_nil_self g' hvals]
  · have hcne : g.cols ≠ [] := by
      intro hcnil
      apply h0
      unfold Grid.nrows
      rw [hcnil]
    have hlen : g'.nrows = (keptIndices g s).length := by
      rw [hg']
      exact selectRows_nrows_of_ne_nil g _ hcne
    have hnle : g'.nrows ≤ g.nrows := by
      rw [hlen]
      exact keptIndices_length_le g s
    have h0mem : 0 ∈ keptIndices g s := by
      rw [mem_keptIndices]
      exact ⟨Nat.pos_of_ne_zero h0, fun j hj => absurd hj (Nat.not_lt_zero j)⟩
    have h0' : g'.nrows ≠ 0 := by
      rw [hlen]
      intro hzero
      rw [List.length_eq_zero] at hzero
      rw [hzero] at h0mem
      exact List.not_mem_nil 0 h0mem
    have hWFlen : ∀ c ∈ g'.cols, c.vals.length = g'.nrows := by
      intro c hc
      rw [hg'] at hc
      have hclen := selectRows_col_lengths g (keptIndices g s) c hc
      rw [hclen, hlen]
    have hdist : ∀ j i, j < i → i < g'.nrows → rowKey g' s j ≠ rowKey g' s i := by
      intro j i hji hi
      have hiK : i < (keptIndices g s).length := hlen ▸ hi
      have hjK : j < (keptIndices g s).length := lt_trans hji hiK
      rw [hg', rowKey_selectRows g s _ j hjK, rowKey_selectRows g s _ i hiK]
      have hsort := keptIndices_pairwise g s
      rw [List.pairwise_iff_getElem] at hsort
      have hlt : (keptIndices g s).getD j 0 < (keptIndices g s).getD i 0 := by
        rw [List.getD_eq_getElem _ 0 hjK, List.getD_eq_getElem _ 0 hiK]
        exact hsort j i hjK hiK hji
      have hmem : (keptIndices g s).getD i 0 ∈ keptIndices g s := by
        rw [List.getD_eq_getElem _ 0 hiK]
        exact List.getElem_mem hiK
      exact ((mem_keptIndices g s _).mp hmem).2 _ hlt
    have hkept' : keptIndices g' s = List.range g'.nrows :=
      keptIndices_eq_range_of_distinct g' s hdist
    have hsel : g'.selectRows (List.range g'.nrows) = g' :=
      selectRows_range g' g'.nrows hWFlen
    refine ⟨hnle, ?_⟩
    cases s with
    | none =>
      rw [deduplicate_none_eq g' h0', hkept', hsel, List.length_range, Nat.sub_self]
    | some ss =>
      have hnames : g'.colNames = g.colNames := by
        rw [hg']
        exact selectRows_colNames g _
      have hfind := deduplicate_ok_subset h0 h
      rw [deduplicate_some_eq g' ss h0']
      simp only [hnames, hfind]
      rw [hkept', hsel, List.length_range, Nat.sub_self]

/-- **C6**: a successful `deduplicate` keeps exactly the first
occurrence of each distinct row — a row index is kept iff no earlier
row has the same comparison key — in strictly increasing (original)
order; the removed count is the original row count minus the kept
count, and row `k` of the output is row `kept k` of the input. -/
theorem deduplicate_keeps_first_occurrences (g : Grid) (s : Option (List String))
    (g' : Grid) (n : Nat) (h : deduplicate g s = .ok (g', n)) :
    ∃ kept : List Nat,
      g' = g.selectRows kept ∧
      n = g.nrows - kept.length ∧
      List.Pairwise (· < ·) kept ∧
      (∀ i, i ∈ kept ↔ i < g.nrows ∧ ∀ j < i, rowKey g s j ≠ rowKey g s i) ∧
      (∀ k, k < kept.length → g'.row k = g.row (kept.getD k 0)) := by
  obtain ⟨hg', hn⟩ := deduplicate_ok_inv h
  refine ⟨keptIndices g s, hg', hn, keptIndices_pairwise g s,
    fun i => mem_keptIndices g s i, fun k hk => ?_⟩
  rw [hg']
  exact row_selectRows g _ k hk

/-- **C7 (amended)**: on a non-empty frame, a subset naming a
non-existent column makes `deduplicate` fail with an `UnknownColumn`
error carrying such a name — no grid is returned.  On an empty frame
(zero rows, in particular zero columns) `drop_duplicates` returns
`self.copy()` before validating the subset, so `deduplicate` returns a
grid with `removedCount = 0` and never raises; on any grid a DataFrame
can represent (all columns of the same, zero, length) that grid is the
input itself. -/
theorem deduplicate_unknown_column (g : Grid) (ss : List String)
    (h : ∃ m ∈ ss, m ∉ g.colNames) :
    (g.nrows ≠ 0 → ∃ m, m ∈ ss ∧ m ∉ g.colNames ∧
      deduplicate g (some ss) = .error (.unknownColumn m)) ∧
    (g.nrows = 0 → ∃ g₀ : Grid, deduplicate g (some ss) = .ok (g₀, 0)) ∧
    ((∀ c ∈ g.cols, c.vals = []) → deduplicate g (some ss) = .ok (g, 0)) := by
  have hvals_empty : (∀ c ∈ g.cols, c.vals = []) → g.nrows = 0 := by
    intro hv
    unfold Grid.nrows
    cases hc : g.cols with
    | nil => rfl
    | cons c cs =>
      have hcv := hv c (by rw [hc]; exact List.mem_cons_self c cs)
      show c.vals.length = 0
      rw [hcv]
      rfl
  refine ⟨?_, ?_, ?_⟩
  · intro h0
    have hsome : (ss.find? fun n => ! g.colNames.contains n).isSome := by
      rw [List.find?_isSome]
      obtain ⟨m, hm, hnm⟩ := h
      refine ⟨m, hm, ?_⟩
      have hc : g.colNames.contains m = false := by
        cases hcc : g.colNames.contains m
        · rfl
        · exact absurd (List.elem_iff.mp hcc) hnm
      rw [hc]
      rfl
    obtain ⟨m, hfind⟩ := Option.isSome_iff_exists.mp hsome
    have hp := List.find?_some hfind
    have hmem := List.mem_of_find?_eq_some hfind
    rw [Bool.not_eq_true'] at hp
    have hnm : m ∉ g.colNames := fun hin => by
      have hc : g.colNames.contains m = true := List.elem_iff.mpr hin
      rw [hp] at hc
      exact Bool.false_ne_true hc
    refine ⟨m, hmem, hnm, ?_⟩
    rw [deduplicate_some_eq g ss h0, hfind]
  · intro h0
    exact ⟨g.selectRows [], deduplicate_empty_eq g (some ss) h0⟩
  · intro hv
    rw [deduplicate_empty_eq g (some ss) (hvals_empty hv), selectRows_nil_self g hv]

/-- A header-only grid: one column, zero rows (e.g. a CSV with a header
line and no data line). -/
def gE : Grid := ⟨[⟨"x", []⟩]⟩

/-- **C7 (counterexample)**: `["zz"]` is a non-empty subset whose name
is not a column of `gE`, yet `deduplicate` on the empty frame `gE`
returns the grid with `removedCount 0` instead of failing:
`drop_duplicates` returns `self.copy()` before validating the subset. -/
theorem claim_C7_counterexample :
    "zz" ∉ gE.colNames ∧ ("zz" :: []) ≠ ([] : List String) ∧
    deduplicate gE (some ["zz"]) = .ok (gE, 0) := by
  refine ⟨by decide, by decide, ?_⟩
  rfl

/-! ### `main` exit behaviour (claim C8) -/

/-- **C8**: with a non-existent input path, `main` exits with code 2
having performed only the output-directory creation — it has not read
or parsed the input and has written no artifact file; with an existing
input whose read/parse fails, it exits with code 3, again with no
artifact written. -/
theorem main_exit_codes (env : Env) (a : Args) :
    (env.inputExists = false →
      main_run env a = ([Event.mkdirOutput], 2) ∧
      Event.readInput ∉ (main_run env a).1 ∧
      ∀ p, Event.writeFile p ∉ (main_run env a).1) ∧
    (∀ e, env.inputExists = true → env.readData = .error e →
      main_run env a = ([Event.mkdirOutput, Event.readInput], 3) ∧
      ∀ p, Event.writeFile p ∉ (main_run env a).1) := by
  constructor
  · intro hne
    have hmain : main_run env a = ([Event.mkdirOutput], 2) := by
      unfold main_run
      rw [hne]
      simp
    refine ⟨hmain, ?_, ?_⟩
    · rw [hmain]
      simp
    · intro p
      rw [hmain]
      simp
  · intro e hex hread
    have hmain : main_run env a = ([Event.mkdirOutput, Event.readInput], 3) := by
      unfold main_run
      rw [hex, hread]
      simp
    refine ⟨hmain, fun p => ?_⟩
    rw [hmain]
    simp

/-! ### `save_plots` lemmas (claim C9) -/

theorem save_plots_loop_length (i : Nat) (cols : List Col) :
    (save_plots_loop i cols).length = cols.length := by
  induction cols generalizing i with
  | nil => rfl
  | cons c rest ih => simp [save_plots_loop, ih]

/-- Element `k` of the plotting loop started at counter `i`: filename
from the 1-based index `i + k + 1` and the column name, data the
column's non-missing numeric values. -/
theorem save_plots_loop_getD (i : Nat) (cols : List Col) (k : Nat)
    (hk : k < cols.length) :
    (save_plots_loop i cols).getD k ⟨"", []⟩ =
      ⟨"hist_" ++ toString (i + k + 1) ++ "_" ++ (cols.getD k default).name ++ ".png",
        histData (cols.getD k default)⟩ := by
  induction cols generalizing i k with
  | nil => simp at hk
  | cons c rest ih =>
    cases k with
    | zero => rfl
    | succ k' =>
      have hk' : k' < rest.length := Nat.lt_of_succ_lt_succ hk
      have harith : i + 1 + k' + 1 = i + (k' + 1) + 1 := by omega
      show (save_plots_loop (i + 1) rest).getD k' ⟨"", []⟩ = _
      rw [ih (i + 1) k' hk', harith]
      rfl

/-- **C9**: `save_plots` iterates over exactly the first `maxPlots`
numeric-dtype columns — a prefix of the grid's numeric columns, which
are a subsequence of the grid's columns — with `min maxPlots (number of
numeric columns)` iterations; iteration `k` (0-based) draws the
histogram of that column's non-missing numeric values and saves it
under the 1-based index `k+1` and the column name; the returned list is
the filenames of the calls, in selection order. -/
theorem save_plots_spec (g : Grid) (m : Nat) :
    (∃ rest, plotSelection g m ++ rest = g.cols.filter Col.isNumericCol) ∧
    List.Sublist (g.cols.filter Col.isNumericCol) g.cols ∧
    (∀ c ∈ plotSelection g m, c.isNumericCol = true) ∧
    (plotSelection g m).length = min m (g.cols.filter Col.isNumericCol).length ∧
    (save_plots_calls g m).length = (plotSelection g m).length ∧
    (∀ k, k < (plotSelection g m).length →
      (save_plots_calls g m).getD k ⟨"", []⟩ =
        ⟨"hist_" ++ toString (k + 1) ++ "_" ++
            ((plotSelection g m).getD k default).name ++ ".png",
          histData ((plotSelection g m).getD k default)⟩) ∧
    save_plots g m = (save_plots_calls g m).map PlotCall.file := by
  refine ⟨⟨(g.cols.filter Col.isNumericCol).drop m, List.take_append_drop m _⟩,
    List.filter_sublist _, ?_, List.length_take m _, ?_, ?_, rfl⟩
  · intro c hc
    have hmem := List.mem_of_mem_take hc
    exact (List.mem_filter.mp hmem).2
  · exact save_plots_loop_length 0 _
  · intro k hk
    have := save_plots_loop_getD 0 (plotSelection g m) k hk
    rw [Nat.zero_add] at this
    exact this

/-! ### Heap-level frame property of `basic_clean` (claim C10) -/

theorem heapGet_append_self (h : List Grid) (g : Grid) :
    heapGet (h ++ [g]) h.length = g := by
  unfold heapGet
  rw [List.getD_eq_getElem?_getD, List.getElem?_concat_length]
  rfl

theorem heapGet_append_lt (h : List Grid) (g : Grid) {r : Nat} (hr : r < h.length) :
    heapGet (h ++ [g]) r = heapGet h r := by
  unfold heapGet
  rw [List.getD_eq_getElem?_getD, List.getD_eq_getElem?_getD,
    List.getElem?_append_left hr]

theorem heapGet_set_self {h : List Grid} {i : Nat} {g : Grid} (hi : i < h.length) :
    heapGet (heapSet h i g) i = g := by
  unfold heapGet heapSet
  rw [List.getD_eq_getElem?_getD, List.getElem?_set_eq hi]
  rfl

theorem heapGet_set_ne {h : List Grid} {i j : Nat} (hij : i ≠ j) (g : Grid) :
    heapGet (heapSet h i g) j = heapGet h j := by
  unfold heapGet heapSet
  rw [List.getD_eq_getElem?_getD, List.getD_eq_getElem?_getD,
    List.getElem?_set_ne hij]

/-- The stateful `basic_clean` collapses to: allocate a copy, store the
pure result into it, return its reference and the pure dropped list. -/
theorem basic_clean_st_eq (h : List Grid) (r : Nat) (t : Rat) (f : String) :
    basic_clean_st h r t f =
      (heapSet (h ++ [heapGet h r]) h.length (basic_clean (heapGet h r) t f).1,
        h.length, (basic_clean (heapGet h r) t f).2) := by
  have hlen0 : h.length < (h ++ [heapGet h r]).length := by simp
  have hlen1 : ∀ g : Grid, h.length < (heapSet (h ++ [heapGet h r]) h.length g).length := by
    intro g
    unfold heapSet
    rw [List.length_set]
    exact hlen0
  have hlen2 : ∀ g g' : Grid, h.length <
      (heapSet (heapSet (h ++ [heapGet h r]) h.length g) h.length g').length := by
    intro g g'
    unfold heapSet
    rw [List.length_set, List.length_set]
    exact hlen0
  unfold basic_clean_st
  dsimp only
  rw [heapGet_append_self]
  rw [heapGet_set_self hlen0]
  rw [heapGet_set_self (hlen1 _)]
  rw [heapGet_set_self (hlen2 _ _)]
  unfold heapSet
  rw [List.set_set, List.set_set, List.set_set]
  unfold basic_clean normGrid
  dsimp only
  rw [List.map_map]
  rfl

/-- **C10**: `basic_clean` leaves the caller's grid unchanged — the
frame passed in holds the same grid after the call — and returns a
fresh object (a different reference) holding the pure result. -/
theorem basic_clean_frame (h : List Grid) (r : Nat) (t : Rat) (f : String)
    (hr : r < h.length) :
    heapGet (basic_clean_st h r t f).1 r = heapGet h r ∧
    (basic_clean_st h r t f).2.1 ≠ r ∧
    heapGet (basic_clean_st h r t f).1 ((basic_clean_st h r t f).2.1) =
      (basic_clean (heapGet h r) t f).1 ∧
    (basic_clean_st h r t f).2.2 = (basic_clean (heapGet h r) t f).2 := by
  rw [basic_clean_st_eq h r t f]
  have hne : h.length ≠ r := Nat.ne_of_gt hr
  refine ⟨?_, hne, ?_, rfl⟩
  · rw [heapGet_set_ne hne, heapGet_append_lt _ _ hr]
  · rw [heapGet_set_self (show h.length < (h ++ [heapGet h r]).length by simp)]

/-! ### Concrete instantiations -/

/-- A small grid: one numeric column with a duplicate row, one textual
column agreeing with it. -/
def gD : Grid :=
  ⟨[⟨"x", [.num 1, .num 1, .num 2]⟩, ⟨"y", [.str "p", .str "p", .str "q"]⟩]⟩

/-- `deduplicate gD none`'s output: row 1 removed. -/
def gDdeduped : Grid :=
  ⟨[⟨"x", [.num 1, .num 2]⟩, ⟨"y", [.str "p", .str "q"]⟩]⟩

/-- A one-column numeric grid with one missing cell. -/
def gW : Grid := ⟨[⟨"x", [.num 1, .missing]⟩]⟩

def envMissingInput : Env := ⟨false, .error "unused"⟩

def envBadParse : Env := ⟨true, .error "boom"⟩

def argsW : Args := ⟨mkRat 3 5, "ffill", none⟩

theorem basic_clean_missing_basis_witness :
    pytrim "x" ∈ (basic_clean gW (mkRat 1 2) "ffill").2 ↔
      ∃ c₀ ∈ gW.cols, pytrim c₀.name = pytrim "x" ∧
        c₀.hasStr = false ∧ mkRat 1 2 < c₀.naFrac :=
  (basic_clean_missing_basis gW (mkRat 1 2) "ffill" (by decide) (by decide)
    (Col.mk "x" [.num 1, .missing]) (by decide)).2.2

theorem basic_clean_fallback_witness :
    (basic_clean gC3 (mkRat 3 5) "median").2 = (basic_clean gC3 (mkRat 3 5) "ffill").2 ∧
    (basic_clean gC3 (mkRat 3 5) "ffill").1.cols =
      (basic_clean gC3 (mkRat 3 5) "median").1.cols.map
        fun c => ⟨c.name, bfillList c.vals⟩ :=
  basic_clean_fallback_ffill_only gC3 (mkRat 3 5) "median" (by decide) (by decide)

theorem basic_clean_drop_iff_witness :
    (mkRat 1 2 < (Col.mk "x" [.num 1, .missing]).naFrac ↔
      "x" ∈ (basic_clean gW (mkRat 1 2) "ffill").2) ∧
    ((Col.mk "x" [.num 1, .missing]).naFrac ≤ mkRat 1 2 ↔
      "x" ∈ (basic_clean gW (mkRat 1 2) "ffill").1.colNames) :=
  (basic_clean_drop_iff gW (mkRat 1 2) "ffill" (by decide) (by decide)
    (Col.mk "x" [.num 1, .missing]) (by decide)).2.2 (by decide)

theorem deduplicate_shrinks_and_idem_witness :
    gDdeduped.nrows ≤ gD.nrows ∧ deduplicate gDdeduped none = .ok (gDdeduped, 0) :=
  deduplicate_shrinks_and_idem gD none gDdeduped 1 (by rfl)

theorem deduplicate_keeps_first_occurrences_witness :
    ∃ kept : List Nat,
      gDdeduped = gD.selectRows kept ∧
      1 = gD.nrows - kept.length ∧
      List.Pairwise (· < ·) kept ∧
      (∀ i, i ∈ kept ↔ i < gD.nrows ∧ ∀ j < i, rowKey gD none j ≠ rowKey gD none i) ∧
      (∀ k, k < kept.length → gDdeduped.row k = gD.row (kept.getD k 0)) :=
  deduplicate_keeps_first_occurrences gD none gDdeduped 1 (by rfl)

theorem deduplicate_unknown_column_witness :
    ∃ m, m ∈ ["x", "zz"] ∧ m ∉ gD.colNames ∧
      deduplicate gD (some ["x", "zz"]) = .error (.unknownColumn m) :=
  (deduplicate_unknown_column gD ["x", "zz"] ⟨"zz", by decide, by decide⟩).1
    (by decide)

theorem main_exit_codes_witness :
    main_run envMissingInput argsW = ([Event.mkdirOutput], 2) ∧
    main_run envBadParse argsW = ([Event.mkdirOutput, Event.readInput], 3) :=
  ⟨((main_exit_codes envMissingInput argsW).1 rfl).1,
    ((main_exit_codes envBadParse argsW).2 "boom" rfl rfl).1⟩

theorem save_plots_spec_witness :
    (save_plots_calls gD 3).getD 0 ⟨"", []⟩ =
      ⟨"hist_" ++ toString (0 + 1) ++ "_" ++
          ((plotSelection gD 3).getD 0 default).name ++ ".png",
        histData ((plotSelection gD 3).getD 0 default)⟩ :=
  (save_plots_spec gD 3).2.2.2.2.2.1 0 (by decide)

theorem basic_clean_frame_witness :
    heapGet (basic_clean_st [gD] 0 (mkRat 3 5) "ffill").1 0 = heapGet [gD] 0 ∧
    (basic_clean_st [gD] 0 (mkRat 3 5) "ffill").2.1 ≠ 0 ∧
    heapGet (basic_clean_st [gD] 0 (mkRat 3 5) "ffill").1
        ((basic_clean_st [gD] 0 (mkRat 3 5) "ffill").2.1) =
      (basic_clean (heapGet [gD] 0) (mkRat 3 5) "ffill").1 ∧
    (basic_clean_st [gD] 0 (mkRat 3 5) "ffill").2.2 =
      (basic_clean (heapGet [gD] 0) (mkRat 3 5) "ffill").2 :=
  basic_clean_frame [gD] 0 (mkRat 3 5) "ffill" (by decide)

end DataProcessor
